import Mathlib

/-!
Verification of the metadata index and selective iterator of the
`repository` package (`src/repository/index.py`, `src/repository/common.py`).

The embedding is shallow:
* the SQLite `files` table is a `List MetaData` (one element per live row);
  columns not used by any verified property (type, width, height, rotation,
  orientation, description, rating, coordinates, tags) are omitted;
* `DateTime` columns are modelled as `Int` (seconds since an arbitrary epoch),
  Python floats (`random_number`, `smart_time`) as `Rat`;
* SQL queries are modelled as list operations; `ORDER BY` is modelled with
  `List.insertionSort` (SQLite leaves the order of ties unspecified, a stable
  sort is one admissible refinement; no verified property depends on the
  order of ties);
* `random.random()` calls are modelled by an explicit stream of draws
  `seeds : Nat -> Rat` consumed left to right.
-/

namespace Pyframe

/-- Database row of the `files` table (class `MetaData` in `index.py`),
restricted to the columns the verified properties touch. -/
structure MetaData where
  rep_uuid : String
  file_uuid : String
  name : String
  creation_date : Int
  random_number : Rat
  last_modified : Int
  last_updated : Int
  verified : Bool
deriving DecidableEq, Repr

instance : Inhabited MetaData :=
  ⟨{ rep_uuid := "", file_uuid := "", name := "", creation_date := 0,
     random_number := 0, last_modified := 0, last_updated := 0, verified := false }⟩

/-- A file as enumerated by `rep.iterator(...)` during `Index.build`
(class `RepositoryFile`), restricted to the attributes `build` reads.
`rep_uuid` models `file.rep.uuid`; `last_updated` is the value the attribute
holds after `file.extract_metadata()`. -/
structure RepositoryFile where
  uuid : String
  rep_uuid : String
  name : String
  creation_date : Int
  last_modified : Int
  last_updated : Int
deriving DecidableEq, Repr

/-- Key predicate of the application-level record identity:
`rep_uuid == u and file_uuid == v`. -/
def keyPred (u v : String) (m : MetaData) : Bool :=
  decide (m.rep_uuid = u ∧ m.file_uuid = v)

/-- All live rows with key `(u, v)` (in table order). -/
def keyRecs (u v : String) (db : List MetaData) : List MetaData :=
  db.filter (keyPred u v)

/-- `session.query(MetaData).filter(rep_uuid == u).filter(file_uuid == v).first()`
(`index.py` line 243). -/
def lookupFirst (u v : String) (db : List MetaData) : Option MetaData :=
  (keyRecs u v db).head?

/-- The fresh row inserted by `Index.build` (`index.py` lines 265-283):
copies the file's attributes, draws a fresh `random_number` and sets
`verified=True`. -/
def mkRecord (f : RepositoryFile) (seed : Rat) : MetaData :=
  { rep_uuid := f.rep_uuid
    file_uuid := f.uuid
    name := f.name
    creation_date := f.creation_date
    random_number := seed
    last_modified := f.last_modified
    last_updated := f.last_updated
    verified := true }

/-- `update(MetaData).where(rep_uuid == repUuid).values(verified=False)`
(`index.py` line 232): the mark step of an update-mode pass. -/
def markUnverified (repUuid : String) (db : List MetaData) : List MetaData :=
  db.map (fun m => if m.rep_uuid = repUuid then { m with verified := false } else m)

/-- One iteration of the per-file loop of `Index.build`
(`index.py` lines 239-294).  State is the table plus the number of random
draws consumed so far.  If no row with the file's key exists, or the found
row is outdated (`mdata.last_updated < file.last_modified`), a fresh row
with a fresh random seed is inserted; otherwise every row with the key is
marked verified. -/
def buildStep (repUuid : String) (seeds : Nat → Rat)
    (st : List MetaData × Nat) (f : RepositoryFile) : List MetaData × Nat :=
  match lookupFirst repUuid f.uuid st.1 with
  | none => (st.1 ++ [mkRecord f (seeds st.2)], st.2 + 1)
  | some m =>
    if m.last_updated < f.last_modified then
      (st.1 ++ [mkRecord f (seeds st.2)], st.2 + 1)
    else
      (st.1.map (fun r => if keyPred repUuid f.uuid r then { r with verified := true } else r),
       st.2)

/-- `delete(MetaData).where(MetaData.verified == False)` (`index.py` line 297):
the end-of-pass sweep.  Note: the delete carries no repository filter. -/
def sweepUnverified (db : List MetaData) : List MetaData :=
  db.filter (fun m => m.verified)

/-- An update-mode (`rebuild=False`) pass of `Index.build` over repository
`repUuid` whose enumeration yields `files`: mark every row of the repository
unverified, run the per-file loop, then sweep unverified rows. -/
def buildUpdate (repUuid : String) (seeds : Nat → Rat)
    (files : List RepositoryFile) (db : List MetaData) : List MetaData :=
  sweepUnverified (files.foldl (buildStep repUuid seeds) (markUnverified repUuid db, 0)).1

/-! Sort relations realising the `order_by` clauses of
`IndexIterator.__init__` (`index.py` lines 442-465). -/

/-- Ascending order on `creation_date` (`order_by(MetaData.creation_date)`). -/
def dateAsc (a b : MetaData) : Prop := a.creation_date ≤ b.creation_date

/-- Descending order on `creation_date` (`order_by(desc(MetaData.creation_date))`). -/
def dateDesc (a b : MetaData) : Prop := b.creation_date ≤ a.creation_date

/-- Ascending order on `random_number` (`order_by(MetaData.random_number)`). -/
def seedAsc (a b : MetaData) : Prop := a.random_number ≤ b.random_number

/-- Descending order on `random_number` (`order_by(desc(MetaData.random_number))`). -/
def seedDesc (a b : MetaData) : Prop := b.random_number ≤ a.random_number

/-- Ascending order on the upper-cased name (`order_by(func.upper(MetaData.name))`). -/
def nameAsc (a b : MetaData) : Prop := a.name.toUpper ≤ b.name.toUpper

/-- Descending order on the upper-cased name
(`order_by(desc(func.upper(MetaData.name)))`). -/
def nameDesc (a b : MetaData) : Prop := b.name.toUpper ≤ a.name.toUpper

instance : DecidableRel dateAsc := fun _ _ => inferInstanceAs (Decidable (_ ≤ _))
instance : DecidableRel dateDesc := fun _ _ => inferInstanceAs (Decidable (_ ≤ _))
instance : DecidableRel seedAsc := fun _ _ => inferInstanceAs (Decidable (_ ≤ _))
instance : DecidableRel seedDesc := fun _ _ => inferInstanceAs (Decidable (_ ≤ _))
instance : DecidableRel nameAsc := fun _ _ => inferInstanceAs (Decidable (_ ≤ _))
instance : DecidableRel nameDesc := fun _ _ => inferInstanceAs (Decidable (_ ≤ _))

instance : IsTotal MetaData dateAsc := ⟨fun _ _ => Int.le_total _ _⟩
instance : IsTrans MetaData dateAsc := ⟨fun _ _ _ h h' => le_trans h h'⟩
instance : IsTotal MetaData dateDesc := ⟨fun _ _ => (Int.le_total _ _).symm⟩
instance : IsTrans MetaData dateDesc := ⟨fun _ _ _ h h' => le_trans h' h⟩
instance : IsTotal MetaData seedAsc := ⟨fun _ _ => le_total _ _⟩
instance : IsTrans MetaData seedAsc := ⟨fun _ _ _ h h' => le_trans h h'⟩
instance : IsTotal MetaData seedDesc := ⟨fun _ _ => (le_total _ _).symm⟩
instance : IsTrans MetaData seedDesc := ⟨fun _ _ _ h h' => le_trans h' h⟩
instance : IsTotal MetaData nameAsc := ⟨fun _ _ => le_total _ _⟩
instance : IsTrans MetaData nameAsc := ⟨fun _ _ _ h h' => le_trans h h'⟩

/-- The `most_recent` handling of `IndexIterator.__init__` (`index.py` lines
435-440): run the filtered query ordered by `creation_date` descending with
`LIMIT n`; if the result is non-empty, add the last returned row's
`creation_date` as an inclusive lower bound filter.  `db` stands for the
result set of the query after all other filters. -/
def mostRecentFilter (n : Nat) (db : List MetaData) : List MetaData :=
  match ((List.insertionSort dateDesc db).take n).getLast? with
  | some last => db.filter (fun m => decide (last.creation_date ≤ m.creation_date))
  | none => db

/-- The `n`-th largest `creation_date` of the records of `db` (counted with
multiplicity); used to state properties of `mostRecentFilter`. -/
def nthLargestDate (n : Nat) (db : List MetaData) : Int :=
  ((List.insertionSort dateDesc db).getD (n - 1) default).creation_date

/-- Anchor search of smart order (`index.py` lines 460-463): the row with the
smallest `random_number >= r`, and if none exists the row with the largest
`random_number <= r`. -/
def smartAnchor (r : Rat) (db : List MetaData) : Option MetaData :=
  match (List.insertionSort seedAsc (db.filter (fun m => decide (r ≤ m.random_number)))).head? with
  | some m => some m
  | none =>
    (List.insertionSort seedDesc (db.filter (fun m => decide (m.random_number ≤ r)))).head?

/-- The anchor as the specification describes it: the record with the smallest
`random_seed >= r`, wrapping to the record with the smallest `random_seed`
overall if none exists.  Written from the spec's words, for comparison with
`smartAnchor`. -/
def smartAnchorSpec (r : Rat) (db : List MetaData) : Option MetaData :=
  match (List.insertionSort seedAsc (db.filter (fun m => decide (r ≤ m.random_number)))).head? with
  | some m => some m
  | none => (List.insertionSort seedAsc db).head?

/-- Smart-order materialization (`index.py` lines 454-465, 469): if an anchor
exists, the result set is the filtered set restricted to
`creation_date >= anchor.creation_date`, ordered by `creation_date`
ascending, limited to `lim` rows; with no anchor (empty filtered set) the
query is left unordered. -/
def smartResult (r : Rat) (lim : Nat) (db : List MetaData) : List MetaData :=
  match smartAnchor r db with
  | some a =>
    (List.insertionSort dateAsc
      (db.filter (fun m => decide (a.creation_date ≤ m.creation_date)))).take lim
  | none => db

/-- Sort orders of the `SORT_ORDER` enumeration (`index.py` lines 144-149). -/
inductive OrderKind where
  | date
  | name
  | random
  | smart

/-- Sort directions of the `SORT_DIR` enumeration (`index.py` lines 138-141). -/
inductive DirKind where
  | ascending
  | descending

/-- The materialization pipeline of `IndexIterator.__init__` (`index.py`
lines 431-469) applied to the result set `db` of the query after all
filters: the `most_recent` lower-bound step runs first, then the requested
order.  `dir` is the value of `criteria.get('direction', SORT_DIR.ASC)`;
it is ignored for `random` and `smart`.  `randPerm` stands for the
permutation SQLite's `ORDER BY random()` happens to produce, and `r` for
the fresh `random.random()` draw of the smart branch. -/
def materialize (ord : Option OrderKind) (dir : DirKind) (mostRec : Option Nat)
    (smartLim : Nat) (r : Rat) (randPerm : List MetaData → List MetaData)
    (db : List MetaData) : List MetaData :=
  let db1 := match mostRec with
    | some n => mostRecentFilter n db
    | none => db
  match ord with
  | none => db1
  | some .random => randPerm db1
  | some .date =>
    match dir with
    | .ascending => List.insertionSort dateAsc db1
    | .descending => List.insertionSort dateDesc db1
  | some .name =>
    match dir with
    | .ascending => List.insertionSort nameAsc db1
    | .descending => List.insertionSort nameDesc db1
  | some .smart => smartResult r smartLim db1

/-- Hours represented by a difference of `secs` seconds, computed the way
`IndexIterator.__next__` computes it from a Python `timedelta`
(`index.py` line 503): `delta.seconds/3600 + delta.days*24`, where a
`timedelta` normalizes to `days = secs fdiv 86400` (floor division) and
`seconds = secs fmod 86400` (in `[0, 86400)`).  The two summands are
combined over the common denominator `3600`
(`seconds/3600 + days*24 = (seconds + 86400*days)/3600`) so that the value
is a single `mkRat`; `deltaHours_eq_formula` below certifies the equality
with the literal two-term formula. -/
def deltaHours (secs : Int) : Rat :=
  mkRat (Int.fmod secs 86400 + 86400 * Int.fdiv secs 86400) 3600

/-- The combined fraction of `deltaHours` equals the literal source formula
`delta.seconds/3600 + delta.days*24`. -/
theorem deltaHours_eq_formula (secs : Int) :
    deltaHours secs =
      ((Int.fmod secs 86400 : Int) : Rat) / 3600 + ((Int.fdiv secs 86400 : Int) : Rat) * 24 := by
  unfold deltaHours
  rw [Rat.mkRat_eq_div]
  push_cast
  field_simp
  ring

/-- Gap in hours between the creation dates of two consecutive rows. -/
def gapHours (prev cur : MetaData) : Rat :=
  deltaHours (cur.creation_date - prev.creation_date)

/-- The `while True` loop of `IndexIterator.__next__` (`index.py` lines
488-516) as a fuelled recursion; fuel `result.length - pos` makes the fuel-0
case coincide with the `StopIteration` branch.  Arguments: whether the
iteration runs in smart order, the `smart_time` criterion, the resolution
oracle `res` (true when `Repository.by_uuid(...).file_by_uuid(...)` succeeds,
false when it raises `UuidError`), the materialized result set, the fuel and
the cursor position.  Returns the yielded row (`none` for `StopIteration`)
and the new cursor position. -/
def nextFrom (smartOrd : Bool) (stime : Rat) (res : MetaData → Bool)
    (result : List MetaData) : Nat → Nat → Option MetaData × Nat
  | 0, pos => (none, pos)
  | fuel + 1, pos =>
    match result.get? pos with
    | none => (none, pos)
    | some mdata =>
      if smartOrd ∧ 1 ≤ pos ∧ stime < gapHours (result.getD (pos - 1) default) mdata then
        (none, pos + 1)
      else if res mdata then
        (some mdata, pos + 1)
      else
        nextFrom smartOrd stime res result fuel (pos + 1)

/-- `IndexIterator.__next__` from cursor position `pos`. -/
def iterNext (smartOrd : Bool) (stime : Rat) (res : MetaData → Bool)
    (result : List MetaData) (pos : Nat) : Option MetaData × Nat :=
  nextFrom smartOrd stime res result (result.length - pos) pos

/-- `IndexIterator.previous(n)` (`index.py` lines 523-541): if the cursor
position exceeds `n`, rewind it by `n + 1` and perform a forward step;
otherwise raise `StopIteration` leaving the cursor untouched. -/
def iterPrevious (smartOrd : Bool) (stime : Rat) (res : MetaData → Bool)
    (result : List MetaData) (pos : Nat) (n : Nat) : Option MetaData × Nat :=
  if n < pos then iterNext smartOrd stime res result (pos - (n + 1))
  else (none, pos)

/-- First element satisfying `res` together with its index; used to state
properties of `nextFrom`. -/
def firstResolvable (res : MetaData → Bool) : List MetaData → Option (Nat × MetaData)
  | [] => none
  | m :: rest =>
    if res m then some (0, m)
    else (firstResolvable res rest).map (fun p => (p.1 + 1, p.2))

/-! Model of the configuration checks of `common.py` and of the validation
sequence at the head of `IndexIterator.__init__` (`index.py` lines 379-393).
Python values appearing in iterator criteria are modelled by `PyVal`
(`plist` covers both Python lists and sets; the criteria dict is an
association list).  A raised `ConfigError` is an `Except.error`. -/

/-- Python values that can occur in an iterator criteria dictionary. -/
inductive PyVal where
  | pnone
  | pint (n : Int)
  | pnum (q : Rat)
  | pstr (s : String)
  | plist (xs : List PyVal)
deriving Repr

/-- Python `==` on the values the checks of `index.py` ever compare: scalars
compare by value, with the numeric types comparing across `int`/`float` as in
Python.  No check in `index.py` compares two lists (option sets hold only
scalars), so list-to-list comparison is modelled as `false`. -/
def PyVal.eqb : PyVal → PyVal → Bool
  | .pnone, .pnone => true
  | .pint a, .pint b => decide (a = b)
  | .pint a, .pnum b => decide ((a : Rat) = b)
  | .pnum a, .pint b => decide (a = (b : Rat))
  | .pnum a, .pnum b => decide (a = b)
  | .pstr a, .pstr b => decide (a = b)
  | _, _ => false

/-- The condition of `common.py` line 113: the value is `None`, or an empty
list/set. -/
def noValue : PyVal → Bool
  | .pnone => true
  | .plist xs => xs.isEmpty
  | _ => false

/-- `check_valid_required(config, valid_keys, required_keys)` (`common.py`
lines 39-60): every key of the configuration must be valid and every
required key present. -/
def check_valid_required (config : List (String × PyVal))
    (validKeys requiredKeys : List String) : Except String Unit :=
  if config.all (fun kv => validKeys.contains kv.1) then
    if requiredKeys.all (fun k => (config.lookup k).isSome) then .ok ()
    else .error "required parameter(s) not specified"
  else .error "additional parameter(s) specified"

/-- The keyword tests `check_param` can be asked to run.  Only the tests the
`IndexIterator` calls exercise are represented (`is_bool`, `is_color`,
`is_time`, `ge`, `lo`, `le` are never passed by `index.py` and are omitted). -/
structure ParamChecks where
  recurse : Bool := false
  required : Bool := true
  is_int : Bool := false
  is_str : Bool := false
  gr : Option Rat := none
  options : Option (List PyVal) := none

/-- Python comparison `value > g` for the `gr` test; `none` models the
`TypeError` Python raises when the value is not a number. -/
def pyGtNum (v : PyVal) (g : Rat) : Option Bool :=
  match v with
  | .pint n => some (decide (g < (n : Rat)))
  | .pnum x => some (decide (g < x))
  | _ => none

/-- The final `options` membership test of `check_param` (`common.py`
line 183); Python `in` compares with `==`. -/
def optionsCheck (v : PyVal) (c : ParamChecks) : Except String Unit :=
  match c.options with
  | some opts => if opts.any (PyVal.eqb v) then .ok () else .error "value not among valid options"
  | none => .ok ()

/-- Scalar part of `check_param` (`common.py` lines 127-184) applied to one
non-dictionary value with `recurse=False`: a list value returns immediately
(line 120-125), `is_str` demands a non-empty string (lines 138-143),
`is_int` demands an integer (line 168), `gr` demands `value > gr`
(line 171), `options` demands membership (line 183). -/
def check_scalar (v : PyVal) (c : ParamChecks) : Except String Unit :=
  match v with
  | .plist _ => .ok ()
  | _ =>
    if c.is_str then
      match v with
      | .pstr s => if s.length = 0 then .error "value must be a non-empty string" else .ok ()
      | _ => .error "value must be a non-empty string"
    else
      match (if c.is_int then
               match v with
               | .pint _ => Except.ok ()
               | _ => Except.error "value must be integer"
             else Except.ok ()) with
      | .error e => .error e
      | .ok () =>
        match c.gr with
        | some g =>
          match pyGtNum v g with
          | some true => optionsCheck v c
          | some false => .error "value out of range"
          | none => .error "TypeError: unorderable types"
        | none => optionsCheck v c

/-- Run checks sequentially, stopping at the first error; models a sequence
of Python statements each of which may raise. -/
def seqChecks : List (Except String Unit) → Except String Unit
  | [] => .ok ()
  | c :: cs =>
    match c with
    | .error e => .error e
    | .ok () => seqChecks cs

/-- `check_param(name, value, ...)` applied to a value already extracted from
the dictionary (`common.py` lines 119-184).  When the value is a list/set and
`recurse` is set, each element is re-checked with `recurse=False`; a nested
list element then returns without any test, exactly as in the source. -/
def check_param_value (v : PyVal) (c : ParamChecks) : Except String Unit :=
  match v with
  | .plist xs =>
    if c.recurse then seqChecks (xs.map (fun x => check_scalar x { c with recurse := false }))
    else .ok ()
  | _ => check_scalar v c

/-- `check_param(name, criteria, ...)` with a dictionary argument
(`common.py` lines 107-125): a present key bound to `None` or to an empty
list/set raises (line 113-114); an absent required key raises (line 116); an
absent optional key passes (line 117). -/
def check_param (name : String) (config : List (String × PyVal))
    (c : ParamChecks) : Except String Unit :=
  match config.lookup name with
  | some v =>
    if noValue v then .error "parameter does not have a value"
    else check_param_value v c
  | none => if c.required then .error "no value for required parameter" else .ok ()

/-- `Index.CRIT_VALID_KEYS` (`index.py` line 165). -/
def CRIT_VALID_KEYS : List String :=
  ["direction", "excluded_tags", "most_recent", "order", "orientation",
   "repositories", "smart_limit", "smart_time", "tags", "types"]

/-- Values of the `SORT_DIR` string enumeration (`index.py` lines 138-141). -/
def sortDirValues : List PyVal := [.pstr "ascending", .pstr "descending"]

/-- Values of the `SORT_ORDER` string enumeration (`index.py` lines 144-149). -/
def sortOrderValues : List PyVal := [.pstr "date", .pstr "name", .pstr "random", .pstr "smart"]

/-- The validation prologue of `IndexIterator.__init__` (`index.py` lines
379-393), run before any query is built.  Note the final guard is the
source's literal `criteria.get('orientation') == SORT_ORDER.SMART`
(line 391; `SORT_ORDER` is a `str` enum, so the comparison is against the
string `"smart"`), even though the surrounding comment announces a check of
the smart-order parameters. -/
def iterCriteriaCheck (config : List (String × PyVal)) : Except String Unit :=
  seqChecks
    [ check_valid_required config CRIT_VALID_KEYS []
    , check_param "direction" config { required := false, options := some sortDirValues }
    , check_param "excluded_tags" config { required := false, recurse := true, is_str := true }
    , check_param "most_recent" config { required := false, gr := some 0 }
    , check_param "order" config { required := false, options := some sortOrderValues }
    , check_param "orientation" config { required := false, options := some [.pint 1, .pint 0] }
    , check_param "repositories" config { required := false, recurse := true, is_str := true }
    , check_param "tags" config { required := false, recurse := true, is_str := true }
    , check_param "types" config { required := false, options := some [.pint 1, .pint 2] }
    , if (config.lookup "orientation").elim false (fun v => PyVal.eqb v (.pstr "smart")) then
        seqChecks
          [ check_param "smart_limit" config { required := true, is_int := true, gr := some 0 }
          , check_param "smart_time" config { required := true, gr := some 0 } ]
      else .ok () ]

/-! Generic list lemmas used to reason about the table operations. -/

/-- Mapping a function that does not change whether `p` holds commutes with
filtering by `p`. -/
theorem filter_map_of_pres {α : Type} (p : α → Bool) (h : α → α)
    (hp : ∀ a, p (h a) = p a) : ∀ l : List α, (l.map h).filter p = (l.filter p).map h := by
  intro l
  induction l with
  | nil => rfl
  | cons a l ih =>
    by_cases ha : p a
    · simp [List.filter_cons, hp, ha, ih]
    · simp [List.filter_cons, hp, ha, ih]

/-- A map that fixes every element of the list is the identity. -/
theorem map_eq_self_of_mem {α : Type} (h : α → α) (l : List α)
    (hl : ∀ a ∈ l, h a = a) : l.map h = l := by
  induction l with
  | nil => rfl
  | cons a l ih =>
    simp only [List.map_cons, hl a (List.mem_cons_self a l)]
    rw [ih (fun b hb => hl b (List.mem_cons_of_mem a hb))]

/-- Mapping functions that agree on the elements of the list agree. -/
theorem map_congr_mem {α β : Type} (f g : α → β) (l : List α)
    (hl : ∀ a ∈ l, f a = g a) : l.map f = l.map g := by
  induction l with
  | nil => rfl
  | cons a l ih =>
    simp only [List.map_cons, hl a (List.mem_cons_self a l)]
    rw [ih (fun b hb => hl b (List.mem_cons_of_mem a hb))]

/-- Two filters commute. -/
theorem filter_comm_bool {α : Type} (p q : α → Bool) (l : List α) :
    (l.filter p).filter q = (l.filter q).filter p := by
  induction l with
  | nil => rfl
  | cons a l ih =>
    by_cases hp : p a <;> by_cases hq : q a <;>
      simp [List.filter_cons, hp, hq, ih]

/-- If one check of a sequence fails, the whole sequence fails. -/
theorem seqChecks_error_of_mem {cs : List (Except String Unit)} {c : Except String Unit}
    (hc : c ∈ cs) (he : ∃ e, c = Except.error e) :
    ∃ e, seqChecks cs = Except.error e := by
  induction cs with
  | nil => cases hc
  | cons c' cs ih =>
    rcases List.mem_cons.mp hc with rfl | hmem
    · obtain ⟨e, rfl⟩ := he
      exact ⟨e, rfl⟩
    · match c' with
      | .error e' => exact ⟨e', rfl⟩
      | .ok () => exact ih hmem

/-! Concrete fixtures used by witnesses and counterexamples. -/

/-- A record of repository `"R"`, file `"f"`, indexed with seed `1/2` and
`last_updated = 0`. -/
def recOld : MetaData :=
  { rep_uuid := "R"
    file_uuid := "f"
    name := "n"
    creation_date := 100
    random_number := mkRat 1 2
    last_modified := 0
    last_updated := 0
    verified := true }

/-- The backing file of `recOld` after being touched:
`last_modified = 1 > recOld.last_updated`. -/
def fileTouched : RepositoryFile :=
  { uuid := "f"
    rep_uuid := "R"
    name := "n"
    creation_date := 100
    last_modified := 1
    last_updated := 1 }

/-- A deterministic stream of random draws, every draw being `1/4`. -/
def constSeeds : Nat → Rat := fun _ => mkRat 1 4

/-- An unverified record belonging to the foreign repository `"B"`. -/
def recForeign : MetaData :=
  { recOld with rep_uuid := "B"
                file_uuid := "g"
                verified := false }

/-- Three resolvable records with distinct names and increasing dates. -/
def recA : MetaData :=
  { recOld with file_uuid := "a"
                name := "Alpha"
                creation_date := 1 }

/-- Second record of the three-record fixture. -/
def recB : MetaData :=
  { recOld with file_uuid := "b"
                name := "Beta"
                creation_date := 2 }

/-- Third record of the three-record fixture. -/
def recC : MetaData :=
  { recOld with file_uuid := "c"
                name := "Gamma"
                creation_date := 3 }

/-- Resolution oracle under which every file is still present. -/
def allAlive : MetaData → Bool := fun _ => true

/-- Resolution oracle under which file `"b"` has vanished from its
repository (`file_by_uuid` raises `UuidError` for it). -/
def bGone : MetaData → Bool := fun m => !(m.file_uuid == "b")

/-- Anchor fixture: seed `1/5`, creation date `5`. -/
def anch1 : MetaData :=
  { recOld with file_uuid := "p"
                creation_date := 5
                random_number := mkRat 1 5 }

/-- Anchor fixture: seed `2/5`, creation date `3`. -/
def anch2 : MetaData :=
  { recOld with file_uuid := "q"
                creation_date := 3
                random_number := mkRat 2 5 }

/-! ### C3 -/

/-- C3: constructing an iterator whose specification sets `order = smart`
without `smart_limit` and `smart_time` does NOT raise a validation error:
the guard at `index.py` line 391 tests `criteria.get('orientation')` instead
of `criteria.get('order')` against `SORT_ORDER.SMART`, so the required-smart-
parameter checks are unreachable and the validation prologue succeeds even
though both companion parameters are absent.  (This contradicts the claim;
the surrounding comment in the source, "Check smart order related
parameters.", shows the code is a slip.) -/
theorem C3_smart_checks_skipped :
    iterCriteriaCheck [("order", PyVal.pstr "smart")] = Except.ok () ∧
    List.lookup "smart_limit" [("order", PyVal.pstr "smart")] = none ∧
    List.lookup "smart_time" [("order", PyVal.pstr "smart")] = none :=
  ⟨rfl, rfl, rfl⟩

/-! ### C10 -/

/-- C10: a criteria dictionary that binds any of the collection-valued keys
`tags`, `excluded_tags` or `repositories` to `None` or to an empty list/set
is rejected by the validation prologue of `IndexIterator.__init__` with a
`ConfigError` (raised by `check_param`, `common.py` line 113-114) before any
query executes. -/
theorem C10_empty_collection_rejected (config : List (String × PyVal))
    (key : String) (v : PyVal)
    (hkey : key = "tags" ∨ key = "excluded_tags" ∨ key = "repositories")
    (hv : config.lookup key = some v) (hnv : noValue v = true) :
    ∃ e, iterCriteriaCheck config = Except.error e := by
  have hcp : check_param key config
      { required := false, recurse := true, is_str := true } =
      Except.error "parameter does not have a value" := by
    unfold check_param
    rw [hv]
    simp [hnv]
  rcases hkey with rfl | rfl | rfl
  · exact seqChecks_error_of_mem
      (by simp only [iterCriteriaCheck, List.mem_cons]; tauto)
      ⟨_, hcp⟩
  · exact seqChecks_error_of_mem
      (by simp only [iterCriteriaCheck, List.mem_cons]; tauto)
      ⟨_, hcp⟩
  · exact seqChecks_error_of_mem
      (by simp only [iterCriteriaCheck, List.mem_cons]; tauto)
      ⟨_, hcp⟩

/-- C10 witness: the concrete specification `{'tags': []}` is rejected. -/
theorem C10_witness :
    ∃ e, iterCriteriaCheck [("tags", PyVal.plist [])] = Except.error e :=
  C10_empty_collection_rejected [("tags", PyVal.plist [])] "tags" (PyVal.plist [])
    (Or.inl rfl) rfl rfl

/-! Effect of one `buildStep` on filtered views of the table. -/

/-- `keyPred` only reads the uuid columns, so setting `verified` preserves it. -/
theorem keyPred_set_verified (u v : String) (m : MetaData) (b : Bool) :
    keyPred u v { m with verified := b } = keyPred u v m := rfl

/-- `keyPred` on a freshly inserted row. -/
theorem keyPred_mkRecord (u v : String) (f : RepositoryFile) (s : Rat) :
    keyPred u v (mkRecord f s) = decide (f.rep_uuid = u ∧ f.uuid = v) := rfl

/-- Membership in a key view. -/
theorem mem_keyRecs {u v : String} {db : List MetaData} {m : MetaData} :
    m ∈ keyRecs u v db ↔ m ∈ db ∧ m.rep_uuid = u ∧ m.file_uuid = v := by
  simp [keyRecs, List.mem_filter, keyPred]

/-- A filtered view whose predicate ignores the `verified` flag, holds on no
insertable row for `f`, and excludes the key updated in the skip branch, is
untouched by one `buildStep`. -/
theorem buildStep_filter_pres (repUuid : String) (seeds : Nat → Rat)
    (f : RepositoryFile) (st : List MetaData × Nat) (p : MetaData → Bool)
    (hver : ∀ m, p { m with verified := true } = p m)
    (hins : ∀ s, p (mkRecord f s) = false)
    (hkey : ∀ m, p m = true → keyPred repUuid f.uuid m = false) :
    ((buildStep repUuid seeds st f).1).filter p = st.1.filter p := by
  have hmap : ∀ a, p (if keyPred repUuid f.uuid a then { a with verified := true } else a) = p a := by
    intro a
    by_cases hk : keyPred repUuid f.uuid a <;> simp [hk, hver]
  unfold buildStep
  cases hl : lookupFirst repUuid f.uuid st.1 with
  | none => simp [List.filter_append, hins]
  | some m =>
    by_cases hout : m.last_updated < f.last_modified
    · simp [hout, List.filter_append, hins]
    · simp only [hout, if_false]
      rw [filter_map_of_pres p _ hmap]
      apply map_eq_self_of_mem
      intro a ha
      have hpa : p a = true := (List.mem_filter.mp ha).2
      simp [hkey a hpa]

/-- In the skip branch (a row exists and is not outdated), the view of the
processed key is the old view with every row marked verified. -/
theorem buildStep_keyRecs_skip (repUuid : String) (seeds : Nat → Rat)
    (f : RepositoryFile) (st : List MetaData × Nat) (m : MetaData)
    (hl : lookupFirst repUuid f.uuid st.1 = some m)
    (hout : ¬ m.last_updated < f.last_modified) :
    keyRecs repUuid f.uuid (buildStep repUuid seeds st f).1 =
      (keyRecs repUuid f.uuid st.1).map (fun r => { r with verified := true }) := by
  have hmap : ∀ a, keyPred repUuid f.uuid
      (if keyPred repUuid f.uuid a then { a with verified := true } else a) =
      keyPred repUuid f.uuid a := by
    intro a
    by_cases hk : keyPred repUuid f.uuid a <;> simp [hk, keyPred_set_verified]
  unfold buildStep
  rw [hl]
  simp only [hout, if_false]
  unfold keyRecs
  rw [filter_map_of_pres _ _ hmap]
  apply map_congr_mem
  intro a ha
  have hpa := (List.mem_filter.mp ha).2
  simp [hpa]

/-- In the insert branches (no row for the key, or the found row outdated),
the view of the processed key is the old view with the fresh row appended. -/
theorem buildStep_keyRecs_insert (repUuid : String) (seeds : Nat → Rat)
    (f : RepositoryFile) (st : List MetaData × Nat)
    (hrep : f.rep_uuid = repUuid)
    (hbr : lookupFirst repUuid f.uuid st.1 = none ∨
      ∃ m, lookupFirst repUuid f.uuid st.1 = some m ∧ m.last_updated < f.last_modified) :
    keyRecs repUuid f.uuid (buildStep repUuid seeds st f).1 =
      keyRecs repUuid f.uuid st.1 ++ [mkRecord f (seeds st.2)] := by
  have hnew : keyPred repUuid f.uuid (mkRecord f (seeds st.2)) = true := by
    simp [keyPred_mkRecord, hrep]
  unfold buildStep
  rcases hbr with hl | ⟨m, hl, hout⟩
  · rw [hl]
    unfold keyRecs
    simp [List.filter_append, hnew]
  · rw [hl]
    simp only [hout, if_true]
    unfold keyRecs
    simp [List.filter_append, hnew]

/-- A filtered view satisfying the preservation conditions for every file of
the pass is untouched by the whole per-file loop. -/
theorem foldl_buildStep_filter_pres (repUuid : String) (seeds : Nat → Rat) (p : MetaData → Bool)
    (hver : ∀ m, p { m with verified := true } = p m) :
    ∀ (files : List RepositoryFile) (st : List MetaData × Nat),
    (∀ f ∈ files, ∀ s, p (mkRecord f s) = false) →
    (∀ f ∈ files, ∀ m, p m = true → keyPred repUuid f.uuid m = false) →
    ((files.foldl (buildStep repUuid seeds) st).1).filter p = st.1.filter p := by
  intro files
  induction files with
  | nil => intro st _ _; rfl
  | cons f rest ih =>
    intro st hins hkey
    simp only [List.foldl_cons]
    rw [ih (buildStep repUuid seeds st f)
        (fun g hg => hins g (List.mem_cons_of_mem f hg))
        (fun g hg => hkey g (List.mem_cons_of_mem f hg))]
    exact buildStep_filter_pres repUuid seeds f st p hver
      (hins f (List.mem_cons_self f rest))
      (hkey f (List.mem_cons_self f rest))

/-- The view of a key different from the one `buildStep` processes is
untouched by the step (the step is for a file of repository `repUuid`). -/
theorem buildStep_keyRecs_other (repUuid : String) (seeds : Nat → Rat)
    (f : RepositoryFile) (st : List MetaData × Nat) (u v : String)
    (hrep : f.rep_uuid = repUuid) (hne : ¬ (u = repUuid ∧ v = f.uuid)) :
    keyRecs u v (buildStep repUuid seeds st f).1 = keyRecs u v st.1 := by
  unfold keyRecs
  apply buildStep_filter_pres
  · intro m; exact keyPred_set_verified u v m true
  · intro s
    rw [keyPred_mkRecord]
    simp only [decide_eq_false_iff_not]
    rintro ⟨h1, h2⟩
    exact hne ⟨by rw [← h1, hrep], h2.symm⟩
  · intro m hm
    simp only [keyPred, decide_eq_true_eq] at hm
    simp only [keyPred, decide_eq_false_iff_not]
    rintro ⟨h1, h2⟩
    exact hne ⟨by rw [← hm.1, h1], by rw [← hm.2, h2]⟩

/-- If a file of the pass finds its key's unique row fresh (not outdated),
the whole per-file loop leaves exactly that row for the key, marked
verified.  Distinctness of the enumerated file uuids keeps every other step
away from the key. -/
theorem foldl_buildStep_keyRecs_skip (repUuid : String) (seeds : Nat → Rat) :
    ∀ (files : List RepositoryFile) (st : List MetaData × Nat)
      (f : RepositoryFile) (m : MetaData),
    (files.map RepositoryFile.uuid).Nodup → f ∈ files →
    keyRecs repUuid f.uuid st.1 = [m] → ¬ m.last_updated < f.last_modified →
    keyRecs repUuid f.uuid ((files.foldl (buildStep repUuid seeds) st).1) =
      [{ m with verified := true }] := by
  intro files
  induction files with
  | nil => intro st f m _ hf; cases hf
  | cons g rest ih =>
    intro st f m hnd hf hkr hfresh
    rw [List.map_cons, List.nodup_cons] at hnd
    have hnd1 : g.uuid ∉ rest.map RepositoryFile.uuid := hnd.1
    have hnd2 : (rest.map RepositoryFile.uuid).Nodup := hnd.2
    simp only [List.foldl_cons]
    rcases List.mem_cons.mp hf with rfl | hmem
    · -- the head file is `f` itself: its step takes the skip branch
      have hl : lookupFirst repUuid f.uuid st.1 = some m := by
        unfold lookupFirst
        rw [hkr]
        rfl
      have hstep := buildStep_keyRecs_skip repUuid seeds f st m hl hfresh
      rw [hkr] at hstep
      -- the remaining files never touch the key
      have := foldl_buildStep_filter_pres repUuid seeds (keyPred repUuid f.uuid)
        (fun m' => keyPred_set_verified repUuid f.uuid m' true) rest
        (buildStep repUuid seeds st f)
        (by
          intro g' hg' s
          rw [keyPred_mkRecord]
          simp only [decide_eq_false_iff_not]
          rintro ⟨-, h2⟩
          exact hnd1 (h2 ▸ List.mem_map_of_mem RepositoryFile.uuid hg'))
        (by
          intro g' hg' m' hm'
          simp only [keyPred, decide_eq_true_eq] at hm'
          simp only [keyPred, decide_eq_false_iff_not]
          rintro ⟨-, h2⟩
          exact hnd1 ((h2.symm.trans hm'.2) ▸ List.mem_map_of_mem RepositoryFile.uuid hg'))
      unfold keyRecs at this ⊢
      rw [this]
      rw [show (buildStep repUuid seeds st f).1.filter (keyPred repUuid f.uuid) =
        keyRecs repUuid f.uuid (buildStep repUuid seeds st f).1 from rfl, hstep]
      rfl
    · -- the head file is a different file: its step leaves the key alone
      have hfg : f.uuid ∈ rest.map RepositoryFile.uuid :=
        List.mem_map_of_mem RepositoryFile.uuid hmem
      have hneq : f.uuid ≠ g.uuid := fun h => hnd1 (h ▸ hfg)
      have hpres : keyRecs repUuid f.uuid (buildStep repUuid seeds st g).1 =
          keyRecs repUuid f.uuid st.1 := by
        unfold keyRecs
        apply buildStep_filter_pres
        · intro m'; exact keyPred_set_verified repUuid f.uuid m' true
        · intro s
          rw [keyPred_mkRecord]
          simp only [decide_eq_false_iff_not]
          rintro ⟨-, h2⟩
          exact hneq h2.symm
        · intro m' hm'
          simp only [keyPred, decide_eq_true_eq] at hm'
          simp only [keyPred, decide_eq_false_iff_not]
          rintro ⟨-, h2⟩
          exact hneq (hm'.2 ▸ h2)
      exact ih (buildStep repUuid seeds st g) f m hnd2 hmem (hpres.trans hkr) hfresh

/-- Effect of the mark step on a key view. -/
theorem markUnverified_keyRecs (repUuid u v : String) (db : List MetaData) :
    keyRecs u v (markUnverified repUuid db) =
      (keyRecs u v db).map
        (fun m => if m.rep_uuid = repUuid then { m with verified := false } else m) := by
  unfold markUnverified keyRecs
  apply filter_map_of_pres
  intro m
  by_cases h : m.rep_uuid = repUuid <;> simp [h, keyPred]

/-- Effect of the sweep on a key view. -/
theorem sweep_keyRecs (u v : String) (db : List MetaData) :
    keyRecs u v (sweepUnverified db) =
      (keyRecs u v db).filter (fun m => m.verified) := by
  unfold sweepUnverified keyRecs
  exact filter_comm_bool _ _ db

/-! ### C1 -/

/-- C1 counterexample: a record with seed `1/2` whose backing file was
touched (`last_modified = 1 >` the record's `last_updated = 0`) is
re-extracted by an update pass, and the record for its `(repository, file)`
key afterwards carries the freshly drawn seed `1/4`, not the old seed `1/2`:
an incremental update that re-extracts a record's metadata does change the
record's random seed. -/
theorem C1_counterexample :
    recOld.random_number = mkRat 1 2 ∧
    recOld.last_updated < fileTouched.last_modified ∧
    (keyRecs "R" "f" (buildUpdate "R" constSeeds [fileTouched] [recOld])).map
      MetaData.random_number = [mkRat 1 4] := by
  refine ⟨rfl, by decide, by decide⟩

/-- C1 amended: an update pass preserves the random seed of every record it
does not re-extract.  If the table holds exactly one record `m` for the key
`(repUuid, f.uuid)`, the enumeration yields `f` (with pairwise distinct file
uuids), and the record is fresh (`not (m.last_updated < f.last_modified)`,
so the skip branch is taken), then after the pass the key still holds
exactly one record and that record carries the seed of `m` unchanged.
(A re-extracted record instead gets a freshly drawn seed, as shown
concretely above.) -/
theorem C1_seed_preserved_when_not_reextracted (repUuid : String) (seeds : Nat → Rat)
    (files : List RepositoryFile) (db : List MetaData) (f : RepositoryFile) (m : MetaData)
    (hnd : (files.map RepositoryFile.uuid).Nodup) (hf : f ∈ files)
    (hkr : keyRecs repUuid f.uuid db = [m])
    (hfresh : ¬ m.last_updated < f.last_modified) :
    ∃ m', keyRecs repUuid f.uuid (buildUpdate repUuid seeds files db) = [m'] ∧
      m'.random_number = m.random_number := by
  have hmrep : m.rep_uuid = repUuid := by
    have hm : m ∈ keyRecs repUuid f.uuid db := by rw [hkr]; exact List.mem_singleton_self m
    exact (mem_keyRecs.mp hm).2.1
  have hmark : keyRecs repUuid f.uuid (markUnverified repUuid db) =
      [{ m with verified := false }] := by
    rw [markUnverified_keyRecs, hkr]
    simp [hmrep]
  have hfold := foldl_buildStep_keyRecs_skip repUuid seeds files
    (markUnverified repUuid db, 0) f { m with verified := false } hnd hf hmark hfresh
  refine ⟨{ m with verified := true }, ?_, rfl⟩
  unfold buildUpdate
  rw [sweep_keyRecs, hfold]
  rfl

/-- C1 witness: the unique record for key `("R", "f")` with seed `1/2` whose
backing file is untouched keeps its seed across an update pass. -/
theorem C1_witness :
    ((([{ fileTouched with last_modified := 0 }] : List RepositoryFile).map
        RepositoryFile.uuid).Nodup) ∧
    (∃ m', keyRecs "R" "f"
        (buildUpdate "R" constSeeds [{ fileTouched with last_modified := 0 }] [recOld]) = [m'] ∧
      m'.random_number = recOld.random_number) := by
  refine ⟨by decide, ?_⟩
  exact C1_seed_preserved_when_not_reextracted "R" constSeeds
    [{ fileTouched with last_modified := 0 }] [recOld]
    { fileTouched with last_modified := 0 } recOld
    (by decide) (by decide) (by decide) (by decide)

/-! ### C2 -/

/-- Rows belonging to repositories other than `repUuid`. -/
def foreignRecs (repUuid : String) (db : List MetaData) : List MetaData :=
  db.filter (fun m => decide (¬ m.rep_uuid = repUuid))

/-- C2 counterexample: the end-of-pass sweep of `Index.build`
(`delete(MetaData).where(MetaData.verified == False)`, `index.py` line 297)
carries no repository filter: an update pass over repository `"R"` with an
empty enumeration deletes the unverified record of the foreign repository
`"B"`, so records of other repositories are not left unchanged by the sweep. -/
theorem C2_counterexample :
    recForeign.rep_uuid = "B" ∧
    recForeign.verified = false ∧
    buildUpdate "R" constSeeds [] [recForeign] = [] := by
  refine ⟨rfl, rfl, by decide⟩

/-- C2 amended: an update pass over repository `repUuid` affects the records
of every other repository in exactly one way — the end-of-pass sweep deletes
those of them that are unverified.  In particular the verified records of
other repositories survive the pass unchanged, and the unverified ones are
deleted regardless of their repository. -/
theorem C2_sweep_deletes_all_unverified (repUuid : String) (seeds : Nat → Rat)
    (files : List RepositoryFile) (db : List MetaData)
    (hrep : ∀ f ∈ files, f.rep_uuid = repUuid) :
    foreignRecs repUuid (buildUpdate repUuid seeds files db) =
      (foreignRecs repUuid db).filter (fun m => m.verified) := by
  have hp : ∀ (m : MetaData) (b : Bool),
      (fun m => decide (¬ m.rep_uuid = repUuid)) { m with verified := b } =
      (fun m => decide (¬ m.rep_uuid = repUuid)) m := fun _ _ => rfl
  unfold buildUpdate
  -- the sweep commutes with the foreign view
  have hsweep : foreignRecs repUuid
      (sweepUnverified (files.foldl (buildStep repUuid seeds) (markUnverified repUuid db, 0)).1) =
      (foreignRecs repUuid
        (files.foldl (buildStep repUuid seeds) (markUnverified repUuid db, 0)).1).filter
        (fun m => m.verified) := by
    unfold sweepUnverified foreignRecs
    exact filter_comm_bool _ _ _
  rw [hsweep]
  -- the per-file loop leaves the foreign view untouched
  have hfold : foreignRecs repUuid
      (files.foldl (buildStep repUuid seeds) (markUnverified repUuid db, 0)).1 =
      foreignRecs repUuid (markUnverified repUuid db) := by
    unfold foreignRecs
    apply foldl_buildStep_filter_pres repUuid seeds _ (fun m => hp m true) files _
    · intro f hf s
      simp [mkRecord, hrep f hf]
    · intro f hf m hm
      simp only [decide_eq_true_eq] at hm
      simp only [keyPred, decide_eq_false_iff_not]
      rintro ⟨h1, -⟩
      exact hm h1
  rw [hfold]
  -- the mark step leaves the foreign view untouched
  have hmark : foreignRecs repUuid (markUnverified repUuid db) = foreignRecs repUuid db := by
    unfold foreignRecs markUnverified
    rw [filter_map_of_pres _ _
      (fun m => by by_cases h : m.rep_uuid = repUuid <;> simp [h])]
    apply map_eq_self_of_mem
    intro a ha
    have hpa := (List.mem_filter.mp ha).2
    simp only [decide_eq_true_eq] at hpa
    simp [hpa]
  rw [hmark]

/-- C2 witness: a pass with an empty enumeration over `"R"` keeps the
verified foreign record and drops the unverified one. -/
theorem C2_witness :
    foreignRecs "R" (buildUpdate "R" constSeeds []
        [recForeign, { recForeign with file_uuid := "h", verified := true }, recOld]) =
      [{ recForeign with file_uuid := "h", verified := true }] := by
  have h := C2_sweep_deletes_all_unverified "R" constSeeds []
    [recForeign, { recForeign with file_uuid := "h", verified := true }, recOld]
    (by intro f hf; cases hf)
  rw [h]
  decide

/-! ### C5 -/

/-- C5 counterexample: inside the very update pass of the C1 scenario,
after the mark step and the per-file commit for the touched file but before
the end-of-pass sweep, the table holds TWO live records for the key
`("R", "f")` — the old unverified record and the freshly inserted one — so
`(repository_id, file_id)` does not identify at most one live record at
intermediate states of a build pass. -/
theorem C5_counterexample :
    (keyRecs "R" "f"
      (buildStep "R" constSeeds (markUnverified "R" [recOld], 0) fileTouched).1).length = 2 := by
  decide

/-- Number of live rows with key `(u, v)`. -/
def keyCount (u v : String) (db : List MetaData) : Nat := (keyRecs u v db).length

/-- Number of verified live rows with key `(u, v)`. -/
def vKeyCount (u v : String) (db : List MetaData) : Nat :=
  ((keyRecs u v db).filter (fun m => m.verified)).length

/-- Application-level uniqueness: no two rows of the table share a key. -/
def UniqueKeys (db : List MetaData) : Prop :=
  db.Pairwise (fun m1 m2 => ¬ (m1.rep_uuid = m2.rep_uuid ∧ m1.file_uuid = m2.file_uuid))

instance (db : List MetaData) : Decidable (UniqueKeys db) := by
  unfold UniqueKeys
  infer_instance

/-- Pairwise distinct keys bound every key count by one. -/
theorem keyCount_le_one_of_uniqueKeys (db : List MetaData) (h : UniqueKeys db)
    (u v : String) : keyCount u v db ≤ 1 := by
  induction db with
  | nil => simp [keyCount, keyRecs]
  | cons m l ih =>
    rw [UniqueKeys, List.pairwise_cons] at h
    obtain ⟨hm, hl⟩ := h
    by_cases hk : keyPred u v m
    · have hk' := hk
      simp only [keyPred, decide_eq_true_eq] at hk'
      have h0 : (keyRecs u v l).length = 0 := by
        rw [List.length_eq_zero]
        apply List.filter_eq_nil_iff.mpr
        intro m' hm'
        simp only [keyPred, decide_eq_true_eq]
        rintro ⟨h1, h2⟩
        exact hm m' hm' ⟨hk'.1.trans h1.symm, hk'.2.trans h2.symm⟩
      simp only [keyCount, keyRecs, List.filter_cons, hk, if_true, List.length_cons]
      have := h0
      unfold keyRecs at this
      omega
    · simp only [keyCount, keyRecs, List.filter_cons, hk, if_false]
      exact ih (by rw [UniqueKeys]; exact hl)

/-- Through the per-file loop of an update pass, every key keeps at most one
verified row, provided the keys of the repository's enumerated files start
with none and at most one row overall. -/
theorem foldl_buildStep_vKeyCount (repUuid : String) (seeds : Nat → Rat) :
    ∀ (files : List RepositoryFile) (st : List MetaData × Nat),
    (files.map RepositoryFile.uuid).Nodup →
    (∀ f ∈ files, f.rep_uuid = repUuid) →
    (∀ u v, vKeyCount u v st.1 ≤ 1) →
    (∀ f ∈ files, keyCount repUuid f.uuid st.1 ≤ 1 ∧ vKeyCount repUuid f.uuid st.1 = 0) →
    ∀ u v, vKeyCount u v ((files.foldl (buildStep repUuid seeds) st).1) ≤ 1 := by
  intro files
  induction files with
  | nil => intro st _ _ h1 _ u v; simpa using h1 u v
  | cons f rest ih =>
    intro st hnd hrep h1 h2 u v
    rw [List.map_cons, List.nodup_cons] at hnd
    have hfrep : f.rep_uuid = repUuid := hrep f (List.mem_cons_self f rest)
    simp only [List.foldl_cons]
    refine ih (buildStep repUuid seeds st f) hnd.2
      (fun g hg => hrep g (List.mem_cons_of_mem f hg)) ?_ ?_ u v
    · -- every key still has at most one verified row after the step
      intro u' v'
      by_cases hne : u' = repUuid ∧ v' = f.uuid
      · obtain ⟨he1, he2⟩ := hne
        rw [he1, he2]
        obtain ⟨hkc, hvc⟩ := h2 f (List.mem_cons_self f rest)
        cases hl : lookupFirst repUuid f.uuid st.1 with
        | none =>
          have hkr : keyRecs repUuid f.uuid st.1 = [] := by
            unfold lookupFirst at hl
            exact List.head?_eq_none_iff.mp hl
          have hins := buildStep_keyRecs_insert repUuid seeds f st hfrep (Or.inl hl)
          unfold vKeyCount
          rw [hins, hkr]
          simp [mkRecord]
        | some m =>
          by_cases hout : m.last_updated < f.last_modified
          · have hins := buildStep_keyRecs_insert repUuid seeds f st hfrep
              (Or.inr ⟨m, hl, hout⟩)
            unfold vKeyCount at hvc ⊢
            rw [hins, List.filter_append]
            simp only [List.length_append, hvc]
            simp [mkRecord]
          · have hskip := buildStep_keyRecs_skip repUuid seeds f st m hl hout
            unfold vKeyCount
            rw [hskip]
            have hall : ((keyRecs repUuid f.uuid st.1).map
                (fun r => { r with verified := true })).filter (fun m => m.verified) =
                (keyRecs repUuid f.uuid st.1).map (fun r => { r with verified := true }) := by
              apply List.filter_eq_self.mpr
              intro a ha
              obtain ⟨b, -, rfl⟩ := List.mem_map.mp ha
              rfl
            rw [hall, List.length_map]
            exact hkc
      · have hpres := buildStep_keyRecs_other repUuid seeds f st u' v' hfrep hne
        unfold vKeyCount
        rw [hpres]
        exact h1 u' v'
    · -- the keys of the remaining files are untouched by the step
      intro g hg
      have hgne : ¬ (repUuid = repUuid ∧ g.uuid = f.uuid) := by
        rintro ⟨-, h⟩
        exact hnd.1 (h ▸ List.mem_map_of_mem RepositoryFile.uuid hg)
      have hpres := buildStep_keyRecs_other repUuid seeds f st repUuid g.uuid hfrep hgne
      obtain ⟨hkc, hvc⟩ := h2 g (List.mem_cons_of_mem f hg)
      exact ⟨by unfold keyCount; rw [hpres]; exact hkc,
             by unfold vKeyCount; rw [hpres]; exact hvc⟩

/-- C5 amended: `(repository_id, file_id)` identifies at most one live
record at every state in which no build pass is underway — if uniqueness
holds before an update pass (and the pass enumerates files of the
repository with pairwise distinct uuids), it holds again once the pass
completes.  Within a pass the property can fail transiently
(see the concrete counterexample above): a re-extracted record coexists with its outdated
predecessor between the per-file commit and the end-of-pass sweep. -/
theorem C5_unique_keys_after_pass (repUuid : String) (seeds : Nat → Rat)
    (files : List RepositoryFile) (db : List MetaData)
    (huniq : UniqueKeys db) (hnd : (files.map RepositoryFile.uuid).Nodup)
    (hrep : ∀ f ∈ files, f.rep_uuid = repUuid) :
    ∀ u v, keyCount u v (buildUpdate repUuid seeds files db) ≤ 1 := by
  intro u v
  unfold buildUpdate keyCount
  rw [sweep_keyRecs]
  refine foldl_buildStep_vKeyCount repUuid seeds files (markUnverified repUuid db, 0)
    hnd hrep ?_ ?_ u v
  · intro u' v'
    have hkc : keyCount u' v' (markUnverified repUuid db) = keyCount u' v' db := by
      unfold keyCount
      rw [markUnverified_keyRecs, List.length_map]
    calc vKeyCount u' v' (markUnverified repUuid db)
        ≤ keyCount u' v' (markUnverified repUuid db) := List.length_filter_le _ _
      _ = keyCount u' v' db := hkc
      _ ≤ 1 := keyCount_le_one_of_uniqueKeys db huniq u' v'
  · intro f hf
    constructor
    · unfold keyCount
      rw [markUnverified_keyRecs, List.length_map]
      exact keyCount_le_one_of_uniqueKeys db huniq _ _
    · unfold vKeyCount
      rw [markUnverified_keyRecs]
      rw [List.length_eq_zero]
      apply List.filter_eq_nil_iff.mpr
      intro a ha
      obtain ⟨b, hb, rfl⟩ := List.mem_map.mp ha
      have hbrep : b.rep_uuid = repUuid := (mem_keyRecs.mp hb).2.1
      simp [hbrep]

/-- C5 witness: after the update pass of the counterexample scenario (with a
second repository's record alongside) completes, the key `("R", "f")` is
unique again. -/
theorem C5_witness :
    keyCount "R" "f" (buildUpdate "R" constSeeds [fileTouched] [recOld, recForeign]) ≤ 1 :=
  C5_unique_keys_after_pass "R" constSeeds [fileTouched] [recOld, recForeign]
    (by decide) (by decide) (by decide) "R" "f"

/-! ### C9 -/

/-- C9 counterexample: over the materialized set `[recA, recB, recC]` with
`recB` vanished from its repository, two forward steps yield `recA` then
`recC` — the skipped reference `recB` advances the cursor, leaving it at
position 3, not 2.  A subsequent `previous(1)` therefore rewinds to position
1 and returns `recC` again, not the first prior yielded record `recA`:
skipped references do count against the cursor position used by backward
steps. -/
theorem C9_counterexample :
    iterNext false 0 bGone [recA, recB, recC] 0 = (some recA, 1) ∧
    iterNext false 0 bGone [recA, recB, recC] 1 = (some recC, 3) ∧
    iterPrevious false 0 bGone [recA, recB, recC] 3 1 = (some recC, 3) ∧
    recC ≠ recA := by
  refine ⟨by decide, by decide, by decide, by decide⟩

/-! ### C4 -/

/-- C4 counterexample: with records of seeds `1/5` and `2/5` and a fresh
random number `r = 1/2` exceeding every seed, the code
(`index.py` line 463) anchors at the record with the LARGEST seed `<= r`
(seed `2/5`), not at the record with the smallest seed overall (seed `1/5`)
as the claim states; the materialized result consequently starts at creation
date 3 and contains both records instead of only the seed-`1/5` record. -/
theorem C4_counterexample :
    (∀ m ∈ [anch1, anch2], m.random_number < mkRat 1 2) ∧
    smartAnchor (mkRat 1 2) [anch1, anch2] = some anch2 ∧
    anch1.random_number < anch2.random_number ∧
    smartAnchorSpec (mkRat 1 2) [anch1, anch2] = some anch1 ∧
    smartResult (mkRat 1 2) 2 [anch1, anch2] = [anch2, anch1] := by
  refine ⟨by decide, by decide, by decide, by decide, by decide⟩

/-! ### C4 (theorem) -/

/-- The head of an insertion sort by a total transitive relation is a member
of the list and a minimum with respect to the relation. -/
theorem head?_insertionSort_min (r : MetaData → MetaData → Prop) [DecidableRel r]
    [IsTotal MetaData r] [IsTrans MetaData r] (l : List MetaData) (a : MetaData)
    (h : (List.insertionSort r l).head? = some a) : a ∈ l ∧ ∀ b ∈ l, r a b := by
  have hs := List.sorted_insertionSort r l
  have hperm := List.perm_insertionSort r l
  cases hins : List.insertionSort r l with
  | nil =>
    rw [hins] at h
    cases h
  | cons x t =>
    rw [hins] at h hs hperm
    have hax : x = a := by simpa using h
    subst hax
    constructor
    · exact hperm.mem_iff.mp (List.mem_cons_self x t)
    · intro b hb
      rcases List.mem_cons.mp (hperm.mem_iff.mpr hb) with rfl | hbt
      · exact (IsTotal.total b b).elim id id
      · exact List.rel_of_sorted_cons hs b hbt

/-- C4 amended: for a non-empty filtered set the smart anchor exists and is
the record with the smallest random seed `>= r` when one exists; otherwise
(every seed `< r`) it is the record with the LARGEST seed `<= r` — i.e. the
largest seed overall, not the smallest as the specification claims
(shown concretely by the counterexample above).  From the anchor, the
materialized result is the
filtered set restricted to `creation_date >= anchor.creation_date`, ordered
by `creation_date` ascending, truncated to `smart_limit` records. -/
theorem C4_smart_anchor_and_result (r : Rat) (lim : Nat) (db : List MetaData)
    (hne : db ≠ []) :
    ∃ a, smartAnchor r db = some a ∧ a ∈ db ∧
      ((∃ m ∈ db, r ≤ m.random_number) →
        r ≤ a.random_number ∧
        ∀ m ∈ db, r ≤ m.random_number → a.random_number ≤ m.random_number) ∧
      ((∀ m ∈ db, m.random_number < r) →
        ∀ m ∈ db, m.random_number ≤ a.random_number) ∧
      smartResult r lim db =
        (List.insertionSort dateAsc
          (db.filter (fun m => decide (a.creation_date ≤ m.creation_date)))).take lim := by
  by_cases hex : ∃ m ∈ db, r ≤ m.random_number
  · obtain ⟨m0, hm0, hr0⟩ := hex
    have hm0f : m0 ∈ db.filter (fun m => decide (r ≤ m.random_number)) :=
      List.mem_filter.mpr ⟨hm0, by simpa using hr0⟩
    cases hsort : List.insertionSort seedAsc
        (db.filter (fun m => decide (r ≤ m.random_number))) with
    | nil =>
      exfalso
      have hperm := List.perm_insertionSort seedAsc
        (db.filter (fun m => decide (r ≤ m.random_number)))
      rw [hsort] at hperm
      rw [hperm.symm.eq_nil] at hm0f
      cases hm0f
    | cons x t =>
      obtain ⟨hxmem, hxmin⟩ := head?_insertionSort_min seedAsc
        (db.filter (fun m => decide (r ≤ m.random_number))) x (by rw [hsort]; rfl)
      have hxdb : x ∈ db := (List.mem_filter.mp hxmem).1
      have hxr : r ≤ x.random_number := by
        simpa using (List.mem_filter.mp hxmem).2
      have hanch : smartAnchor r db = some x := by
        unfold smartAnchor
        rw [hsort]
        rfl
      refine ⟨x, hanch, hxdb, ?_, ?_, ?_⟩
      · intro _
        exact ⟨hxr, fun m hm hrm =>
          hxmin m (List.mem_filter.mpr ⟨hm, by simpa using hrm⟩)⟩
      · intro hall
        exact absurd hr0 (not_le.mpr (hall m0 hm0))
      · unfold smartResult
        rw [hanch]
  · have hall : ∀ m ∈ db, m.random_number < r := by
      intro m hm
      by_contra hc
      exact hex ⟨m, hm, not_lt.mp hc⟩
    have hge : db.filter (fun m => decide (r ≤ m.random_number)) = [] := by
      apply List.filter_eq_nil_iff.mpr
      intro m hm
      simpa using not_le.mpr (hall m hm)
    have hfle : db.filter (fun m => decide (m.random_number ≤ r)) = db := by
      apply List.filter_eq_self.mpr
      intro m hm
      simpa using le_of_lt (hall m hm)
    cases hsort : List.insertionSort seedDesc
        (db.filter (fun m => decide (m.random_number ≤ r))) with
    | nil =>
      exfalso
      have hperm := List.perm_insertionSort seedDesc
        (db.filter (fun m => decide (m.random_number ≤ r)))
      rw [hsort] at hperm
      exact hne (by rw [← hfle]; exact hperm.symm.eq_nil)
    | cons x t =>
      obtain ⟨hxmem, hxmin⟩ := head?_insertionSort_min seedDesc
        (db.filter (fun m => decide (m.random_number ≤ r))) x (by rw [hsort]; rfl)
      have hxdb : x ∈ db := (List.mem_filter.mp hxmem).1
      have hanch : smartAnchor r db = some x := by
        unfold smartAnchor
        rw [hge, hsort]
        rfl
      refine ⟨x, hanch, hxdb, ?_, ?_, ?_⟩
      · rintro ⟨m, hm, hrm⟩
        exact absurd hrm (not_le.mpr (hall m hm))
      · intro _ m hm
        exact hxmin m (List.mem_filter.mpr ⟨hm, by simpa using le_of_lt (hall m hm)⟩)
      · unfold smartResult
        rw [hanch]

/-- C4 witness: the amended anchor/result characterization holds at the
concrete two-record database of the counterexample. -/
theorem C4_witness :
    ∃ a, smartAnchor (mkRat 1 2) [anch1, anch2] = some a ∧ a ∈ [anch1, anch2] ∧
      ((∃ m ∈ [anch1, anch2], mkRat 1 2 ≤ m.random_number) →
        mkRat 1 2 ≤ a.random_number ∧
        ∀ m ∈ [anch1, anch2], mkRat 1 2 ≤ m.random_number →
          a.random_number ≤ m.random_number) ∧
      ((∀ m ∈ [anch1, anch2], m.random_number < mkRat 1 2) →
        ∀ m ∈ [anch1, anch2], m.random_number ≤ a.random_number) ∧
      smartResult (mkRat 1 2) 2 [anch1, anch2] =
        (List.insertionSort dateAsc
          ([anch1, anch2].filter
            (fun m => decide (a.creation_date ≤ m.creation_date)))).take 2 :=
  C4_smart_anchor_and_result (mkRat 1 2) 2 [anch1, anch2] (by decide)

/-! ### C6 -/

/-- The last element of `l.take n` is the `(n-1)`-th element of `l` whenever
`0 < n <= l.length`. -/
theorem take_getLast?_eq {α : Type} [Inhabited α] :
    ∀ (l : List α) (n : Nat), 0 < n → n ≤ l.length →
    (l.take n).getLast? = some (l.getD (n - 1) default) := by
  intro l
  induction l with
  | nil =>
    intro n h1 h2
    simp only [List.length_nil] at h2
    omega
  | cons a t ih =>
    intro n h1 h2
    match n with
    | 1 => simp
    | Nat.succ (Nat.succ k) =>
      cases t with
      | nil =>
        simp only [List.length_cons, List.length_nil] at h2
        omega
      | cons b t' =>
        have h2' : k + 1 ≤ (b :: t').length := by
          simp only [List.length_cons] at h2 ⊢
          omega
        rw [List.take_succ_cons]
        have hne : List.take (k + 1) (b :: t') = b :: List.take k t' := by
          rw [List.take_succ_cons]
        rw [hne, List.getLast?_cons_cons, ← hne]
        rw [ih (k + 1) (by omega) h2']
        simp

/-- C6: with `0 < n <= |db|` (the other filters match at least `n` records),
the `most_recent` step keeps exactly the records whose `creation_date` is
greater than or equal to the `n`-th largest creation date — an inclusive
lower bound, so every record tying with the boundary date is kept and the
result may hold more than `n` records. -/
theorem C6_most_recent_inclusive (n : Nat) (db : List MetaData)
    (h1 : 0 < n) (h2 : n ≤ db.length) :
    mostRecentFilter n db =
      db.filter (fun m => decide (nthLargestDate n db ≤ m.creation_date)) := by
  have hlen : (List.insertionSort dateDesc db).length = db.length :=
    (List.perm_insertionSort dateDesc db).length_eq
  have hlast := take_getLast?_eq (List.insertionSort dateDesc db) n h1 (by omega)
  unfold mostRecentFilter
  rw [hlast]
  rfl

/-- Record with creation date `D - 1 = 9`, first in table order in the
`most_recent` tie witness. -/
def recDc : MetaData := { recOld with file_uuid := "dc", creation_date := 9 }

/-- First record carrying the boundary date `D = 10`. -/
def recDa : MetaData := { recOld with file_uuid := "da", creation_date := 10 }

/-- Record carrying date `D - 2 = 8`. -/
def recDd : MetaData := { recOld with file_uuid := "dd", creation_date := 8 }

/-- Second record carrying the boundary date `D = 10`. -/
def recDb : MetaData := { recOld with file_uuid := "db", creation_date := 10 }

/-- C6 witness: with creation dates `[9, 10, 8, 10]` and `most_recent = 2`,
the boundary is the 2nd largest date `10` and both date-10 records are in
the result. -/
theorem C6_witness :
    mostRecentFilter 2 [recDc, recDa, recDd, recDb] =
      List.filter (fun m => decide (nthLargestDate 2 [recDc, recDa, recDd, recDb] ≤
        m.creation_date)) [recDc, recDa, recDd, recDb] ∧
    mostRecentFilter 2 [recDc, recDa, recDd, recDb] = [recDa, recDb] ∧
    nthLargestDate 2 [recDc, recDa, recDd, recDb] = 10 :=
  ⟨C6_most_recent_inclusive 2 [recDc, recDa, recDd, recDb] (by decide) (by decide),
   by decide, by decide⟩

/-! ### C9 -/

/-- One-step unfolding of the `while True` loop with fuel available. -/
theorem nextFrom_succ (smartOrd : Bool) (stime : Rat) (res : MetaData → Bool)
    (result : List MetaData) (fuel pos : Nat) :
    nextFrom smartOrd stime res result (fuel + 1) pos =
      (match result.get? pos with
       | none => (none, pos)
       | some mdata =>
         if smartOrd ∧ 1 ≤ pos ∧ stime < gapHours (result.getD (pos - 1) default) mdata then
           (none, pos + 1)
         else if res mdata then (some mdata, pos + 1)
         else nextFrom smartOrd stime res result fuel (pos + 1)) := rfl

/-- Characterization of a forward step outside smart order: the `while True`
loop scans from the cursor for the first reference that still resolves,
yields it and places the cursor right after it — skipped references advance
the cursor — and signals exhaustion with the cursor at the end of the set
when no resolvable reference remains. -/
theorem nextFrom_no_smart (stime : Rat) (res : MetaData → Bool) (result : List MetaData) :
    ∀ (fuel pos : Nat), fuel = result.length - pos → pos ≤ result.length →
    nextFrom false stime res result fuel pos =
      (match firstResolvable res (result.drop pos) with
       | some (j, m) => (some m, pos + j + 1)
       | none => (none, result.length)) := by
  intro fuel
  induction fuel with
  | zero =>
    intro pos hf hp
    have hpos : pos = result.length := by omega
    subst hpos
    rw [List.drop_length]
    rfl
  | succ fuel ih =>
    intro pos hf hp
    have hlt : pos < result.length := by omega
    have hget : result.get? pos = some result[pos] := by
      rw [List.get?_eq_getElem?, List.getElem?_eq_getElem hlt]
    have hdrop : result.drop pos = result[pos] :: result.drop (pos + 1) :=
      List.drop_eq_getElem_cons hlt
    rw [hdrop, nextFrom_succ, hget]
    have hsm : ¬ ((false = true) ∧ 1 ≤ pos ∧
        stime < gapHours (result.getD (pos - 1) default) result[pos]) := by
      rintro ⟨h, -⟩
      cases h
    by_cases hres : res result[pos] = true
    · simp [hsm, firstResolvable, hres]
    · simp only [hsm, if_false, hres, firstResolvable]
      rw [ih (pos + 1) (by omega) (by omega)]
      simp only [hres, Bool.false_eq_true, if_false]
      cases h' : firstResolvable res (result.drop (pos + 1)) with
      | none => rfl
      | some p =>
        obtain ⟨j, m⟩ := p
        show (some m, pos + 1 + j + 1) = (some m, pos + (j + 1) + 1)
        rw [Prod.mk.injEq]
        exact ⟨rfl, by omega⟩

/-- C9 amended: during forward iteration a reference whose file no longer
resolves is skipped silently (no exception escapes the loop), but each
skipped reference still advances the cursor position used by backward
steps; the step yields the first resolvable reference after the cursor and
leaves the cursor right after it, and exhaustion is signalled exactly when
no resolvable reference remains, with the cursor at the end of the
materialized set. -/
theorem C9_skip_advances_cursor (stime : Rat) (res : MetaData → Bool)
    (result : List MetaData) (pos : Nat) (hp : pos ≤ result.length) :
    iterNext false stime res result pos =
      (match firstResolvable res (result.drop pos) with
       | some (j, m) => (some m, pos + j + 1)
       | none => (none, result.length)) :=
  nextFrom_no_smart stime res result (result.length - pos) pos rfl hp

/-- C9 witness: from cursor position 1 over `[recA, recB, recC]` with `recB`
vanished, the forward step yields `recC` (skipping one reference) and puts
the cursor at 3. -/
theorem C9_witness :
    iterNext false 0 bGone [recA, recB, recC] 1 = (some recC, 3) := by
  rw [C9_skip_advances_cursor 0 bGone [recA, recB, recC] 1 (by decide)]
  decide

/-! ### C7 -/

/-- Record at creation-date offset 0 hours (the anchor of the cutoff
scenario). -/
def recT0 : MetaData :=
  { recOld with file_uuid := "t0"
                creation_date := 0 }

/-- Record at creation-date offset 1 hour. -/
def recT1 : MetaData :=
  { recOld with file_uuid := "t1"
                creation_date := 3600 }

/-- Record at creation-date offset 30 hours. -/
def recT30 : MetaData :=
  { recOld with file_uuid := "t30"
                creation_date := 108000 }

/-- C7: in smart order, a forward step from cursor position `pos >= 1`
(with records remaining) signals exhaustion exactly when the creation-date
gap between the previous row and the row at the cursor exceeds `smart_time`
hours: it raises `StopIteration` (leaving the advanced cursor) if the gap
exceeds the limit even though records remain, and yields the row at the
cursor when the gap is within the limit (and the row resolves). -/
theorem C7_smart_time_cutoff (result : List MetaData) (stime : Rat)
    (res : MetaData → Bool) (pos : Nat) (h1 : 1 ≤ pos) (h2 : pos < result.length) :
    (stime < gapHours (result.getD (pos - 1) default) (result.getD pos default) →
      iterNext true stime res result pos = (none, pos + 1)) ∧
    (¬ stime < gapHours (result.getD (pos - 1) default) (result.getD pos default) →
      res (result.getD pos default) = true →
      iterNext true stime res result pos = (some (result.getD pos default), pos + 1)) := by
  have hfuel : result.length - pos = (result.length - pos - 1) + 1 := by omega
  have hget : result.get? pos = some (result.getD pos default) := by
    rw [List.get?_eq_getElem?, List.getElem?_eq_getElem h2]
    rw [List.getD_eq_getElem?_getD, List.getElem?_eq_getElem h2]
    rfl
  constructor
  · intro hgap
    unfold iterNext
    rw [hfuel, nextFrom_succ, hget]
    exact if_pos ⟨rfl, h1, hgap⟩
  · intro hgap hres
    unfold iterNext
    rw [hfuel, nextFrom_succ, hget]
    dsimp only
    rw [if_neg (fun h => hgap h.2.2), if_pos hres]

/-- C7 witness: records at creation-date offsets 0h, 1h and 30h with
`smart_time = 24` yield exactly two records before exhaustion is signalled,
even though a third record remains in the materialized set. -/
theorem C7_witness :
    iterNext true 24 allAlive [recT0, recT1, recT30] 0 = (some recT0, 1) ∧
    iterNext true 24 allAlive [recT0, recT1, recT30] 1 = (some recT1, 2) ∧
    iterNext true 24 allAlive [recT0, recT1, recT30] 2 = (none, 3) := by
  refine ⟨by decide, ?_, ?_⟩
  · exact (C7_smart_time_cutoff [recT0, recT1, recT30] 24 allAlive 1
      (by decide) (by decide)).2 (by decide) (by decide)
  · exact (C7_smart_time_cutoff [recT0, recT1, recT30] 24 allAlive 2
      (by decide) (by decide)).1 (by decide)

/-! ### C8 -/

/-- C8: `previous(n)` rewinds the cursor by `n + 1` positions and performs a
forward step.  Outside smart order, and with the record at the rewound
position still resolvable, it returns the `n`-th prior record and leaves
the cursor at `pos - n`; with `n` or fewer prior positions
(`pos <= n`) it raises `StopIteration` without moving the cursor. -/
theorem C8_previous_rewind (stime : Rat) (res : MetaData → Bool)
    (result : List MetaData) (pos n : Nat) (hpos : pos ≤ result.length) :
    (n < pos →
      res (result.getD (pos - (n + 1)) default) = true →
      iterPrevious false stime res result pos n =
        (some (result.getD (pos - (n + 1)) default), pos - n)) ∧
    (pos ≤ n → iterPrevious false stime res result pos n = (none, pos)) := by
  constructor
  · intro hlt hres
    have hp0 : pos - (n + 1) < result.length := by omega
    have hgd : result.getD (pos - (n + 1)) default = result[pos - (n + 1)] := by
      rw [List.getD_eq_getElem?_getD, List.getElem?_eq_getElem hp0]
      rfl
    unfold iterPrevious
    rw [if_pos hlt]
    unfold iterNext
    rw [nextFrom_no_smart stime res result _ (pos - (n + 1)) rfl (by omega)]
    rw [List.drop_eq_getElem_cons hp0]
    rw [hgd] at hres
    simp only [firstResolvable, hres, if_true]
    show (some result[pos - (n + 1)], pos - (n + 1) + 0 + 1) =
      (some (result.getD (pos - (n + 1)) default), pos - n)
    rw [Prod.mk.injEq]
    exact ⟨by rw [hgd], by omega⟩
  · intro hle
    unfold iterPrevious
    rw [if_neg (by omega)]

/-- C8 witness: over the three-record materialization `[recA, recB, recC]`
(already in ascending name order), three forward steps then `previous(1)`
yield the second record with the cursor at 2, and `previous()` straight
after construction (cursor 0) raises without moving the cursor. -/
theorem C8_witness :
    iterNext false 0 allAlive [recA, recB, recC] 0 = (some recA, 1) ∧
    iterNext false 0 allAlive [recA, recB, recC] 1 = (some recB, 2) ∧
    iterNext false 0 allAlive [recA, recB, recC] 2 = (some recC, 3) ∧
    iterPrevious false 0 allAlive [recA, recB, recC] 3 1 = (some recB, 2) ∧
    iterPrevious false 0 allAlive [recA, recB, recC] 0 1 = (none, 0) := by
  refine ⟨by decide, by decide, by decide, ?_, ?_⟩
  · exact (C8_previous_rewind 0 allAlive [recA, recB, recC] 3 1 (by decide)).1
      (by decide) (by decide)
  · exact (C8_previous_rewind 0 allAlive [recA, recB, recC] 0 1 (by decide)).2
      (by decide)

end Pyframe
